import Mathlib

/-!
# Verification of the dewey-decimal classification index

Shallow embedding of the repository's core (src/src/lib.rs and src/build.rs):
the code normalizer `Dewey.as_label`, the trie-backed query engine
(`get_class`, `get_matches`, `get_direct_children`, `get_all_children`,
`get_parent`, `categories`), and the build-time record generator
`generate_class`.

Modelling conventions:
* Rust strings are modelled as `List Char`; `code.len()` is char length and
  `String::pop` is `List.dropLast` (all relevant codes are ASCII).
* A Rust panic (`unwrap()` on a failed parse or a missing category) is
  modelled as `none` in an outer `Option` layer: a query returning
  `Option (Option Class)` yields `none` for a panic, `some none` for a
  normal "not found" result, and `some (some r)` for a hit.
* The `trie_rs` prefix trie is modelled as its list of `(digit key, Class)`
  entries; `exact_match` is first-match lookup and `predictive_search` is a
  prefix filter.  The trie library's guarantee that iteration is
  key-lexicographic appears as a `Pairwise` sortedness hypothesis on the
  entry list where an ordering claim needs it.
-/

namespace Dewey

/-- A Dewey Decimal class record, from the `Class` struct emitted by
`build.rs` (fields `code`, `name`, `has_children`). -/
structure Class where
  code : List Char
  name : String
  has_children : Bool
  deriving Repr, DecidableEq

/-- The prefix trie, modelled by its entries: digit-sequence keys paired
with records, in the trie's iteration order. -/
structure DTrie where
  entries : List (List Nat × Class)
  deriving Repr, DecidableEq

/-- `str.trim_matches('X')` from `Dewey::as_label` (lib.rs:34): removes
occurrences of `'X'` from both the start and the end of the string. -/
def trimMatchesX (s : List Char) : List Char :=
  ((s.dropWhile (fun c => c = 'X')).reverse.dropWhile (fun c => c = 'X')).reverse

/-- `str.trim_end_matches('X')` from `generate_class` (build.rs:43,71):
removes occurrences of `'X'` only from the end of the string. -/
def trimEndX (s : List Char) : List Char :=
  (s.reverse.dropWhile (fun c => c = 'X')).reverse

/-- `c.to_string().parse::<u8>()` on a single char: succeeds exactly on the
ASCII digits, producing the digit value; anything else is a parse failure
(which the Rust code turns into a panic via `unwrap()`). -/
def parseDigit (c : Char) : Option Nat :=
  if c.isDigit then some (c.toNat - 48) else none

/-- `Dewey::as_label` (lib.rs:31-38): trims `'X'` from both ends, then
parses each remaining char as a digit.  `none` models the panic the Rust
code raises (via `unwrap()`) when a remaining char is not a digit. -/
def as_label (code : List Char) : Option (List Nat) :=
  (trimMatchesX code).mapM parseDigit

/-- `Trie::exact_match` on the entry-list model: the record stored at
exactly this key, if any. -/
def exactMatch (t : DTrie) (lbl : List Nat) : Option Class :=
  (t.entries.find? (fun e => e.1 = lbl)).map (fun e => e.2)

/-- The entries hit by `Trie::predictive_search`: those whose key starts
with the given label (including an equal key). -/
def matchEntries (t : DTrie) (lbl : List Nat) : List (List Nat × Class) :=
  t.entries.filter (fun e => lbl.isPrefixOf e.1)

/-- `Dewey::get_class` (lib.rs:49-51): exact match on the normalized code.
Outer `none` = panic inside `as_label`; `some none` = no such class. -/
def get_class (t : DTrie) (code : List Char) : Option (Option Class) :=
  (as_label code).map (fun lbl => exactMatch t lbl)

/-- `Dewey::get_matches` (lib.rs:62-67): predictive (prefix) search on the
normalized code, keeping the records.  Outer `none` = panic. -/
def get_matches (t : DTrie) (code : List Char) : Option (List Class) :=
  (as_label code).map (fun lbl => (matchEntries t lbl).map (fun e => e.2))

/-- `Dewey::get_direct_children` (lib.rs:78-86): filters `get_matches` to
records whose code is exactly one char longer than the RAW caller-supplied
code (`c.code.len() == code.len() + 1`). -/
def get_direct_children (t : DTrie) (code : List Char) : Option (List Class) :=
  (get_matches t code).map (fun ms =>
    ms.filter (fun c => c.code.length = code.length + 1))

/-- `Dewey::get_all_children` (lib.rs:97-105): filters `get_matches` to
records whose code differs from the RAW caller-supplied code
(`c.code == code` is dropped). -/
def get_all_children (t : DTrie) (code : List Char) : Option (List Class) :=
  (get_matches t code).map (fun ms =>
    ms.filter (fun c => ¬ c.code = code))

/-- `Dewey::get_parent` (lib.rs:116-124): if the raw code has length > 1,
pop its last char and `get_class` the result; otherwise `None` (with no
normalization attempted, hence no possible panic: `some none`). -/
def get_parent (t : DTrie) (code : List Char) : Option (Option Class) :=
  if 1 < code.length then get_class t code.dropLast else some none

/-- The `.map(|c| self.get_class(c.to_string()).unwrap()).collect()`
traversal of `Dewey::categories`: look each char up, unwrap (panic —
`none` — when the class is absent or normalization panicked), and collect
the records in order. -/
def collectUnwrap (t : DTrie) : List Char → Option (List Class)
  | [] => some []
  | ch :: rest =>
      match (get_class t [ch]).bind id with
      | none => none
      | some r => (collectUnwrap t rest).map (fun rs => r :: rs)

/-- `Dewey::categories` (lib.rs:131-136): `get_class` on each of `"0"`
through `"9"`, unwrapping each result.  A missing category is a panic,
modelled by `none`. -/
def categories (t : DTrie) : Option (List Class) :=
  collectUnwrap t ['0', '1', '2', '3', '4', '5', '6', '7', '8', '9']

/-! ## The build-time record generator (build.rs) -/

/-- A raw source-tree node (`enum Class` in build.rs:12-28): an internal
node with children, or a leaf.  Only `name`, `short` and the children are
used by `generate_class`. -/
inductive SClass where
  | node (name : String) (short : List Char) (children : List SClass)
  | leaf (name : String) (short : List Char)
  deriving Repr

/-- The raw `short` code of a source node. -/
def SClass.short : SClass → List Char
  | .node _ s _ => s
  | .leaf _ s => s

mutual
/-- `generate_class` (build.rs:40-95): the `(key, record)` pairs whose
insertions the generated code performs for this node's subtree, in
emission (pre-order) order.  A node whose `trim_end_matches('X')`-trimmed
code is longer than 4 emits nothing and its children are not visited.
Keys are the digit values of the trimmed code (the generated code parses
each char with `parse::<u8>().unwrap()`; parsing is assumed to succeed
here and verified under the input contract in the theorems). -/
def generateClass : SClass → List (List Char × Bool)
  | .node _ short children =>
      if (trimEndX short).length > 4 then []
      else (trimEndX short, true) :: generateClassList children
  | .leaf _ short =>
      if (trimEndX short).length > 4 then []
      else [(trimEndX short, false)]

/-- Pre-order emission over a list of sibling nodes (the `for` loop at
build.rs:66-68 and the top-level loop in `main`). -/
def generateClassList : List SClass → List (List Char × Bool)
  | [] => []
  | c :: cs => generateClass c ++ generateClassList cs
end

/-- The §6 input contract on one raw code: a nonempty run of decimal
digits followed by zero or more trailing `'X'` placeholders. -/
def CodeOk (s : List Char) : Prop :=
  ∃ ds k, s = ds ++ List.replicate k 'X' ∧ ds ≠ [] ∧ ∀ c ∈ ds, c.isDigit

/-- The §6 input contract holding at every node of a source tree. -/
inductive WF : SClass → Prop where
  | node {name short children} : CodeOk short → (∀ c ∈ children, WF c) →
      WF (.node name short children)
  | leaf {name short} : CodeOk short → WF (.leaf name short)

/-- Strict key-lexicographic (ascending digit) order on trie keys, the
iteration order of `trie_rs` predictive search. -/
def keyLt : List Nat → List Nat → Bool
  | [], [] => false
  | [], _ :: _ => true
  | _ :: _, [] => false
  | a :: as, b :: bs => a < b ∨ (a = b ∧ keyLt as bs)

/-- Modelled from the spec: §4.1's normalizer as written there — "Strips
trailing placeholder characters" only (leading `'X'` is kept and hence
makes parsing fail).  Used solely to compare the spec's wording with the
code's `as_label`. -/
def specNormalize (code : List Char) : Option (List Nat) :=
  (trimEndX code).mapM parseDigit

/-- The code string the generated build code stores for a digit key
(`Class { code: code.clone(), .. }` where the key is the parsed digits of
`code`): the digit characters of the key. -/
def digitsToCode (ds : List Nat) : List Char :=
  ds.map (fun d => Char.ofNat (48 + d))

/-- The build invariant relating stored records to their keys: each
record's `code` field is the digit string of its trie key (build.rs:50-57). -/
def CodesMatchKeys (t : DTrie) : Prop :=
  ∀ e ∈ t.entries, e.2.code = digitsToCode e.1

/-! ## Concrete sample indexes, used to evaluate the queries at specific
inputs (witnesses and counterexamples).  They satisfy the build
invariants: digit-only codes matching the keys, keys sorted
key-lexicographically. -/

/-- A record with the given code and no further structure. -/
def mkRec (code : List Char) : Class :=
  { code := code, name := "", has_children := false }

/-- A two-entry index holding codes `2` and `24`. -/
def sampleTrie : DTrie :=
  { entries := [([2], mkRec ['2']), ([2, 4], mkRec ['2', '4'])] }

/-- A ten-entry index holding the top-level codes `0` through `9`. -/
def catTrie : DTrie :=
  { entries :=
      [([0], mkRec ['0']), ([1], mkRec ['1']), ([2], mkRec ['2']),
       ([3], mkRec ['3']), ([4], mkRec ['4']), ([5], mkRec ['5']),
       ([6], mkRec ['6']), ([7], mkRec ['7']), ([8], mkRec ['8']),
       ([9], mkRec ['9'])] }

/-! ## Helper lemmas -/

/-- A `List.isPrefixOf` test that returns `true` is an actual prefix. -/
theorem isPrefixOf_true_iff {l₁ l₂ : List Nat} :
    l₁.isPrefixOf l₂ = true ↔ l₁ <+: l₂ :=
  List.isPrefixOf_iff_prefix

/-- If any char in the list makes its unwrapped lookup panic, the whole
collection panics. -/
theorem collectUnwrap_none {t : DTrie} {ch : Char} :
    ∀ {l : List Char}, ch ∈ l → (get_class t [ch]).bind id = none →
      collectUnwrap t l = none := by
  intro l
  induction l with
  | nil => intro h; cases h
  | cons x xs ih =>
      intro hm hnone
      rcases List.mem_cons.mp hm with h | h
      · subst h
        have h2 : ((get_class t [ch]).bind fun a => a) = none := hnone
        simp [collectUnwrap, h2]
      · unfold collectUnwrap
        cases hx : (get_class t [x]).bind id with
        | none => rfl
        | some r => simp [ih h hnone]

/-- Everything emitted for a list of sibling source nodes comes from one
of them. -/
theorem mem_generateClassList {e : List Char × Bool} :
    ∀ {cs : List SClass}, e ∈ generateClassList cs → ∃ c ∈ cs, e ∈ generateClass c := by
  intro cs
  induction cs with
  | nil => intro h; cases h
  | cons c cs ih =>
      intro hm
      rcases List.mem_append.mp hm with h | h
      · exact ⟨c, List.mem_cons_self c cs, h⟩
      · rcases ih h with ⟨c2, hc2, he⟩
        exact ⟨c2, List.mem_cons_of_mem c hc2, he⟩

/-- `trim_end_matches('X')` on a §6-conformant code recovers exactly its
digit part. -/
theorem trimEndX_digits_append_placeholder {ds : List Char} {k : Nat}
    (hne : ds ≠ []) (hd : ∀ c ∈ ds, c.isDigit) :
    trimEndX (ds ++ List.replicate k 'X') = ds := by
  unfold trimEndX
  rw [List.reverse_append, List.reverse_replicate]
  rw [List.dropWhile_append_of_pos (by intro a ha; simp [List.eq_of_mem_replicate ha])]
  cases hr : ds.reverse with
  | nil => exact absurd (List.reverse_eq_nil_iff.mp hr) hne
  | cons c rest =>
      have hc : c ∈ ds := by
        have : c ∈ ds.reverse := by rw [hr]; exact List.mem_cons_self c rest
        exact List.mem_reverse.mp this
      have hcd : c.isDigit := hd c hc
      have hcx : ¬ (c = 'X') := by
        intro h; rw [h] at hcd; exact absurd hcd (by decide)
      rw [List.dropWhile_cons_of_neg (by simpa using hcx), ← hr, List.reverse_reverse]

/-- Dropping a leading run of `'X'` splits a list into that run and the
rest. -/
theorem exists_replicate_append_dropWhileX (l : List Char) :
    ∃ k, l = List.replicate k 'X' ++ l.dropWhile (fun c => decide (c = 'X')) := by
  refine ⟨(l.takeWhile (fun c => decide (c = 'X'))).length, ?_⟩
  conv_lhs => rw [← List.takeWhile_append_dropWhile (fun c => decide (c = 'X')) l]
  congr 1
  apply List.eq_replicate_of_mem
  intro b hb
  simpa using List.mem_takeWhile_imp hb

/-- `trim_matches('X')` decomposes its input as a leading run of `'X'`,
the kept core, and a trailing run of `'X'`. -/
theorem trimMatchesX_decomposition (s : List Char) :
    ∃ k m, s = List.replicate k 'X' ++ (trimMatchesX s ++ List.replicate m 'X') := by
  obtain ⟨k, hk⟩ := exists_replicate_append_dropWhileX s
  obtain ⟨m, hm⟩ :=
    exists_replicate_append_dropWhileX (s.dropWhile (fun c => decide (c = 'X'))).reverse
  refine ⟨k, m, ?_⟩
  have h2 : s.dropWhile (fun c => decide (c = 'X')) = trimMatchesX s ++ List.replicate m 'X' := by
    conv_lhs => rw [← List.reverse_reverse (s.dropWhile (fun c => decide (c = 'X'))), hm]
    rw [List.reverse_append, List.reverse_replicate]
    rfl
  rw [← h2, ← hk]

/-- The core kept by `trim_matches('X')` does not start or end with a
placeholder. -/
theorem trimMatchesX_ends_not_placeholder (s : List Char) :
    (∀ c ∈ (trimMatchesX s).take 1, c ≠ 'X')
    ∧ (∀ c ∈ (trimMatchesX s).reverse.take 1, c ≠ 'X') := by
  have hrev : (trimMatchesX s).reverse =
      (s.dropWhile (fun c => decide (c = 'X'))).reverse.dropWhile (fun c => decide (c = 'X')) := by
    unfold trimMatchesX
    rw [List.reverse_reverse]
  constructor
  · intro c hc hcx
    have hh : (trimMatchesX s).head? = some c := by
      rw [List.take_one] at hc
      cases hq : (trimMatchesX s).head? with
      | none => rw [hq] at hc; cases hc
      | some b => rw [hq] at hc; simp at hc; rw [hc]
    obtain ⟨m, hm⟩ :
        ∃ m, s.dropWhile (fun c => decide (c = 'X')) =
          trimMatchesX s ++ List.replicate m 'X' := by
      obtain ⟨m, hm⟩ :=
        exists_replicate_append_dropWhileX (s.dropWhile (fun c => decide (c = 'X'))).reverse
      refine ⟨m, ?_⟩
      conv_lhs => rw [← List.reverse_reverse (s.dropWhile (fun c => decide (c = 'X'))), hm]
      rw [List.reverse_append, List.reverse_replicate]
      rfl
    have hds : (s.dropWhile (fun c => decide (c = 'X'))).head? = some c := by
      rw [hm, List.head?_append, hh]
      rfl
    have hnx := List.head?_dropWhile_not (fun c => decide (c = 'X')) s
    rw [hds] at hnx
    simp at hnx
    exact hnx hcx
  · intro c hc hcx
    have hh : ((trimMatchesX s).reverse).head? = some c := by
      rw [List.take_one] at hc
      cases hq : ((trimMatchesX s).reverse).head? with
      | none => rw [hq] at hc; cases hc
      | some b => rw [hq] at hc; simp at hc; rw [hc]
    rw [hrev] at hh
    have hnx :=
      List.head?_dropWhile_not (fun c => decide (c = 'X'))
        (s.dropWhile (fun c => decide (c = 'X'))).reverse
    rw [hh] at hnx
    simp at hnx
    exact hnx hcx

/-! ## The claims -/

/-- C1 (code_bug evidence): on an input whose stripped form still holds a
non-digit, the query operations do not return a recoverable typed error —
`as_label` panics (`unwrap()` on a failed `u8` parse, modelled as `none`)
inside `get_class`, `get_matches`, `get_direct_children` and
`get_all_children`, aborting the process; and `get_parent` on a one-char
malformed code returns `None` without even flagging the bad input.  The
library defines no `InvalidCodeFormat` (or any) error type. -/
theorem claim_C1_queries_panic_not_typed_error :
    as_label ['a'] = none
    ∧ get_class sampleTrie ['a'] = none
    ∧ get_matches sampleTrie ['a'] = none
    ∧ get_direct_children sampleTrie ['a'] = none
    ∧ get_all_children sampleTrie ['a'] = none
    ∧ get_parent sampleTrie ['a', 'b'] = none
    ∧ get_parent sampleTrie ['a'] = some none := by decide

/-- C2 (counterexample): `as_label` strips a LEADING placeholder as well —
`"X1"` normalizes to the key `[1]`, while the §4.1 wording (strip trailing
placeholders only, then parse) would fail on the retained `'X'`. -/
theorem claim_C2_counterexample_leading_placeholder_stripped :
    as_label ['X', '1'] = some [1] ∧ specNormalize ['X', '1'] = none := by decide

/-- C2 (amended): normalization removes exactly the leading and the
trailing runs of placeholder characters `'X'` (an interior `'X'` is kept,
and then fails the digit parse), and parses what is kept as decimal
digits. -/
theorem claim_C2_normalization_trims_both_ends (s : List Char) :
    (∃ k m, s = List.replicate k 'X' ++ (trimMatchesX s ++ List.replicate m 'X'))
    ∧ (∀ c ∈ (trimMatchesX s).take 1, c ≠ 'X')
    ∧ (∀ c ∈ (trimMatchesX s).reverse.take 1, c ≠ 'X')
    ∧ as_label s = (trimMatchesX s).mapM parseDigit :=
  ⟨trimMatchesX_decomposition s, (trimMatchesX_ends_not_placeholder s).1,
    (trimMatchesX_ends_not_placeholder s).2, rfl⟩

/-- C3 (counterexample): for the caller-supplied code `"2X"` (normalized
key `[2]`), `get_all_children` KEEPS the record whose code `"2"` equals
the normalized input, because the exclusion compares against the raw
string `"2X"`. -/
theorem claim_C3_counterexample_self_kept_for_placeholder_input :
    as_label ['2', 'X'] = some [2]
    ∧ get_all_children sampleTrie ['2', 'X'] = some [mkRec ['2'], mkRec ['2', '4']]
    ∧ (mkRec ['2']).code = digitsToCode [2] := by decide

/-- C3 (amended): every record returned by `get_all_children` has a code
that starts with the normalized input key, and differs from the RAW
caller-supplied code string (so the exact-match record is excluded only
when the caller passed the code already in canonical form). -/
theorem claim_C3_all_children_descend_from_key (t : DTrie) (c : List Char) (lbl : List Nat)
    (res : List Class) (e : Class) (hwf : CodesMatchKeys t) (hl : as_label c = some lbl)
    (hres : get_all_children t c = some res) (he : e ∈ res) :
    digitsToCode lbl <+: e.code ∧ e.code ≠ c := by
  unfold get_all_children at hres
  rcases Option.map_eq_some'.mp hres with ⟨ms, hms, hfil⟩
  subst hfil
  have hne : e.code ≠ c := by
    have := List.of_mem_filter he
    simpa using this
  have hems : e ∈ ms := List.mem_of_mem_filter he
  unfold get_matches at hms
  rw [hl] at hms
  have hms2 : ms = (matchEntries t lbl).map (fun e => e.2) := by
    simpa using hms.symm
  subst hms2
  rcases List.mem_map.mp hems with ⟨p, hp, hpe⟩
  unfold matchEntries at hp
  have hp2 := List.mem_filter.mp hp
  have hpre : lbl.isPrefixOf p.1 = true := hp2.2
  have hpent : p ∈ t.entries := hp2.1
  have hcode : e.code = digitsToCode p.1 := by
    rw [← hpe]; exact hwf p hpent
  refine ⟨?_, hne⟩
  rw [hcode]
  unfold digitsToCode
  exact (isPrefixOf_true_iff.mp hpre).map _

/-- C3 (witness): the amended statement at the index `{2, 24}` with input
`"2"`, record `24`. -/
theorem claim_C3_witness :
    digitsToCode [2] <+: (mkRec ['2', '4']).code ∧ (mkRec ['2', '4']).code ≠ ['2'] :=
  claim_C3_all_children_descend_from_key sampleTrie ['2'] [2] [mkRec ['2', '4']]
    (mkRec ['2', '4']) (by unfold CodesMatchKeys; decide) (by decide) (by decide) (by decide)

/-- C4: every record returned by `get_direct_children` has a code exactly
one char longer than the RAW caller-supplied code. -/
theorem claim_C4_direct_children_length (t : DTrie) (c : List Char) (res : List Class)
    (e : Class) (hres : get_direct_children t c = some res) (he : e ∈ res) :
    e.code.length = c.length + 1 := by
  unfold get_direct_children at hres
  rcases Option.map_eq_some'.mp hres with ⟨ms, hms, hfil⟩
  subst hfil
  have := List.of_mem_filter he
  simpa using this

/-- C4 (witness): at the index `{2, 24}` with input `"2"`. -/
theorem claim_C4_witness :
    (mkRec ['2', '4']).code.length = (['2'] : List Char).length + 1 :=
  claim_C4_direct_children_length sampleTrie ['2'] [mkRec ['2', '4']] (mkRec ['2', '4'])
    (by decide) (by decide)

/-- C5: `get_parent` operates on the raw code — when the raw code has
more than one char it is `get_class` of the code minus its last char, and
when the raw code has at most one char it is `None` (with no failure
possible). -/
theorem claim_C5_parent_truncates_raw (t : DTrie) (c : List Char) :
    (∀ s a, c = s ++ [a] → s ≠ [] → get_parent t c = get_class t s)
    ∧ (c.length ≤ 1 → get_parent t c = some none) := by
  constructor
  · intro s a hc hs
    subst hc
    have hlen : 1 < (s ++ [a]).length := by
      have h0 := List.length_pos.mpr hs
      simp only [List.length_append, List.length_cons, List.length_nil]
      omega
    unfold get_parent
    rw [if_pos hlen, List.dropLast_concat]
  · intro h
    have hlen : ¬ 1 < c.length := by omega
    unfold get_parent
    rw [if_neg hlen]

/-- C5 (witness): at the index `{2, 24}` with inputs `"24"` and `"2"`. -/
theorem claim_C5_witness :
    get_parent sampleTrie ['2', '4'] = get_class sampleTrie ['2']
    ∧ get_parent sampleTrie ['2'] = some none :=
  ⟨(claim_C5_parent_truncates_raw sampleTrie ['2', '4']).1 ['2'] '4' rfl (by decide),
   (claim_C5_parent_truncates_raw sampleTrie ['2']).2 (by decide)⟩

/-- C6: when each single-digit code resolves, `categories` returns
exactly the ten records of `get_class "0"` … `get_class "9"` in order;
when any of them is missing, `categories` panics (`unwrap()` on `None`,
modelled as `none`) instead of returning a shorter list. -/
theorem claim_C6_categories_ten_or_panic (t : DTrie) :
    (∀ r0 r1 r2 r3 r4 r5 r6 r7 r8 r9 : Class,
      get_class t ['0'] = some (some r0) →
      get_class t ['1'] = some (some r1) →
      get_class t ['2'] = some (some r2) →
      get_class t ['3'] = some (some r3) →
      get_class t ['4'] = some (some r4) →
      get_class t ['5'] = some (some r5) →
      get_class t ['6'] = some (some r6) →
      get_class t ['7'] = some (some r7) →
      get_class t ['8'] = some (some r8) →
      get_class t ['9'] = some (some r9) →
      categories t = some [r0, r1, r2, r3, r4, r5, r6, r7, r8, r9])
    ∧ (∀ ch ∈ (['0', '1', '2', '3', '4', '5', '6', '7', '8', '9'] : List Char),
      get_class t [ch] = some none → categories t = none) := by
  constructor
  · intro r0 r1 r2 r3 r4 r5 r6 r7 r8 r9 h0 h1 h2 h3 h4 h5 h6 h7 h8 h9
    have b0 : ((get_class t ['0']).bind fun a => a) = some r0 := by rw [h0]; rfl
    have b1 : ((get_class t ['1']).bind fun a => a) = some r1 := by rw [h1]; rfl
    have b2 : ((get_class t ['2']).bind fun a => a) = some r2 := by rw [h2]; rfl
    have b3 : ((get_class t ['3']).bind fun a => a) = some r3 := by rw [h3]; rfl
    have b4 : ((get_class t ['4']).bind fun a => a) = some r4 := by rw [h4]; rfl
    have b5 : ((get_class t ['5']).bind fun a => a) = some r5 := by rw [h5]; rfl
    have b6 : ((get_class t ['6']).bind fun a => a) = some r6 := by rw [h6]; rfl
    have b7 : ((get_class t ['7']).bind fun a => a) = some r7 := by rw [h7]; rfl
    have b8 : ((get_class t ['8']).bind fun a => a) = some r8 := by rw [h8]; rfl
    have b9 : ((get_class t ['9']).bind fun a => a) = some r9 := by rw [h9]; rfl
    simp [categories, collectUnwrap, b0, b1, b2, b3, b4, b5, b6, b7, b8, b9]
  · intro ch hch hnone
    unfold categories
    exact collectUnwrap_none hch (by rw [hnone]; rfl)

/-- C6 (witness): the ten-category index yields all ten records in order;
the index `{2, 24}` (missing `"0"`) makes `categories` panic. -/
theorem claim_C6_witness :
    categories catTrie =
      some [mkRec ['0'], mkRec ['1'], mkRec ['2'], mkRec ['3'], mkRec ['4'],
        mkRec ['5'], mkRec ['6'], mkRec ['7'], mkRec ['8'], mkRec ['9']]
    ∧ categories sampleTrie = none :=
  ⟨(claim_C6_categories_ten_or_panic catTrie).1 (mkRec ['0']) (mkRec ['1']) (mkRec ['2'])
      (mkRec ['3']) (mkRec ['4']) (mkRec ['5']) (mkRec ['6']) (mkRec ['7']) (mkRec ['8'])
      (mkRec ['9']) (by decide) (by decide) (by decide) (by decide) (by decide) (by decide)
      (by decide) (by decide) (by decide) (by decide),
   (claim_C6_categories_ten_or_panic sampleTrie).2 '0' (by decide) (by decide)⟩

/-- C7: whenever normalization succeeds and `get_class` finds a record,
that record is among the `get_matches` results (prefix-inclusive
reflexivity). -/
theorem claim_C7_matches_contain_exact (t : DTrie) (c : List Char) (lbl : List Nat) (r : Class)
    (hl : as_label c = some lbl) (hr : get_class t c = some (some r)) :
    ∃ ms, get_matches t c = some ms ∧ r ∈ ms := by
  have hex : exactMatch t lbl = some r := by
    unfold get_class at hr
    rw [hl] at hr
    simpa using hr
  unfold exactMatch at hex
  rcases Option.map_eq_some'.mp hex with ⟨e, hfind, he2⟩
  have hmem : e ∈ t.entries := List.mem_of_find?_eq_some hfind
  have hkey : e.1 = lbl := by
    have := List.find?_some hfind
    simpa using this
  refine ⟨(matchEntries t lbl).map (fun e => e.2), ?_, ?_⟩
  · unfold get_matches
    rw [hl]
    rfl
  · rw [← he2]
    apply List.mem_map_of_mem
    unfold matchEntries
    apply List.mem_filter.mpr
    refine ⟨hmem, ?_⟩
    rw [hkey]
    exact isPrefixOf_true_iff.mpr (List.prefix_refl lbl)

/-- C7 (witness): at the index `{2, 24}` with input `"2"`. -/
theorem claim_C7_witness :
    ∃ ms, get_matches sampleTrie ['2'] = some ms ∧ mkRec ['2'] ∈ ms :=
  claim_C7_matches_contain_exact sampleTrie ['2'] [2] (mkRec ['2']) (by decide) (by decide)

/-- Under the §6 input contract, every emitted code is a nonempty list of
decimal digits with at most 4 chars. -/
theorem generateClass_entries_wf {cl : SClass} (h : WF cl) :
    ∀ e ∈ generateClass cl,
      (∀ ch ∈ e.1, ch.isDigit = true) ∧ 1 ≤ e.1.length ∧ e.1.length ≤ 4 := by
  induction h with
  | @node name short children hcode hch ih =>
      intro e he
      by_cases h4 : (trimEndX short).length > 4
      · simp [generateClass, h4] at he
      · simp only [generateClass] at he
        rw [if_neg h4] at he
        rcases List.mem_cons.mp he with hx | hx
        · subst hx
          obtain ⟨ds, k, hds, hne, hdig⟩ := hcode
          rw [hds, trimEndX_digits_append_placeholder hne hdig] at h4 ⊢
          show (∀ ch ∈ ds, ch.isDigit = true) ∧ 1 ≤ ds.length ∧ ds.length ≤ 4
          exact ⟨fun c hc => hdig c hc, List.length_pos.mpr hne, by omega⟩
        · rcases mem_generateClassList hx with ⟨c2, hc2, he2⟩
          exact ih c2 hc2 e he2
  | @leaf name short hcode =>
      intro e he
      by_cases h4 : (trimEndX short).length > 4
      · simp [generateClass, h4] at he
      · simp only [generateClass] at he
        rw [if_neg h4] at he
        rcases List.mem_singleton.mp he with hx
        subst hx
        obtain ⟨ds, k, hds, hne, hdig⟩ := hcode
        rw [hds, trimEndX_digits_append_placeholder hne hdig] at h4 ⊢
        show (∀ ch ∈ ds, ch.isDigit = true) ∧ 1 ≤ ds.length ∧ ds.length ≤ 4
        exact ⟨fun c hc => hdig c hc, List.length_pos.mpr hne, by omega⟩

/-- C8: under the §6 input contract, every emitted record's code consists
only of decimal digits with length between 1 and 4; and a source node
whose trimmed code exceeds 4 chars emits nothing — neither itself nor
anything from its subtree. -/
theorem claim_C8_builder_digit_depth_invariant (cl : SClass) (h : WF cl) :
    (generateClass cl).all
      (fun e => e.1.all Char.isDigit && decide (1 ≤ e.1.length) && decide (e.1.length ≤ 4))
      = true
    ∧ (4 < (trimEndX cl.short).length → generateClass cl = []) := by
  constructor
  · apply List.all_eq_true.mpr
    intro e he
    obtain ⟨hd, h1, h4⟩ := generateClass_entries_wf h e he
    simp only [Bool.and_eq_true, List.all_eq_true, decide_eq_true_eq]
    exact ⟨⟨fun c hc => hd c hc, h1⟩, h4⟩
  · intro h4
    cases cl with
    | node name short children =>
        simp only [SClass.short] at h4
        simp only [generateClass]
        rw [if_pos h4]
    | leaf name short =>
        simp only [SClass.short] at h4
        simp only [generateClass]
        rw [if_pos h4]

/-- C8 (witness): a conformant two-node tree (`"2X"` with child `"24"`)
emits only digit codes of length 1–4, and a too-deep leaf (`"12345"`)
emits nothing. -/
theorem claim_C8_witness :
    (generateClass (SClass.node "" ['2', 'X'] [SClass.leaf "" ['2', '4']])).all
      (fun e => e.1.all Char.isDigit && decide (1 ≤ e.1.length) && decide (e.1.length ≤ 4))
      = true
    ∧ generateClass (SClass.leaf "" ['1', '2', '3', '4', '5']) = [] :=
  ⟨(claim_C8_builder_digit_depth_invariant (SClass.node "" ['2', 'X'] [SClass.leaf "" ['2', '4']])
      (by
        refine WF.node ⟨['2'], 1, rfl, by decide, by decide⟩ ?_
        intro c hc
        have hc2 := List.mem_singleton.mp hc
        subst hc2
        exact WF.leaf ⟨['2', '4'], 0, rfl, by decide, by decide⟩)).1,
   (claim_C8_builder_digit_depth_invariant (SClass.leaf "" ['1', '2', '3', '4', '5'])
      (WF.leaf ⟨['1', '2', '3', '4', '5'], 0, rfl, by decide, by decide⟩)).2 (by decide)⟩

/-- C9: with the trie's entries in key-lexicographic order (the iteration
order `trie_rs` guarantees), the prefix-search hits stay in that order;
the returned record list is exactly their records, is no longer than the
index (finite), and repeated calls at the same input agree
(the embedding's queries are pure functions of the immutable index, so
there is no cursor state to share). -/
theorem claim_C9_matches_sorted_finite_deterministic (t : DTrie) (c : List Char)
    (lbl : List Nat) (hs : t.entries.Pairwise (fun a b => keyLt a.1 b.1 = true))
    (hl : as_label c = some lbl) :
    (matchEntries t lbl).Pairwise (fun a b => keyLt a.1 b.1 = true)
    ∧ get_matches t c = some ((matchEntries t lbl).map (fun e => e.2))
    ∧ ((matchEntries t lbl).map (fun e => e.2)).length ≤ t.entries.length
    ∧ (∀ ms₁ ms₂, get_matches t c = some ms₁ → get_matches t c = some ms₂ → ms₁ = ms₂) := by
  refine ⟨?_, ?_, ?_, ?_⟩
  · unfold matchEntries
    exact hs.filter _
  · unfold get_matches
    rw [hl]
    rfl
  · rw [List.length_map]
    unfold matchEntries
    exact List.length_filter_le _ _
  · intro ms₁ ms₂ h1 h2
    rw [h1] at h2
    exact Option.some.inj h2

/-- C9 (witness): at the (sorted) index `{2, 24}` with input `"2"`. -/
theorem claim_C9_witness :
    (matchEntries sampleTrie [2]).Pairwise (fun a b => keyLt a.1 b.1 = true)
    ∧ get_matches sampleTrie ['2'] = some ((matchEntries sampleTrie [2]).map (fun e => e.2)) :=
  ⟨(claim_C9_matches_sorted_finite_deterministic sampleTrie ['2'] [2]
      (by decide) (by decide)).1,
   (claim_C9_matches_sorted_finite_deterministic sampleTrie ['2'] [2]
      (by decide) (by decide)).2.1⟩

/-- C10: an input that normalizes to the empty key (empty, or all
placeholders) makes `get_matches` return every record of the index, while
`get_class` finds nothing (no record has the empty key). -/
theorem claim_C10_empty_key_returns_all (t : DTrie) (c : List Char)
    (hl : as_label c = some []) (hne : ∀ e ∈ t.entries, e.1 ≠ []) :
    get_matches t c = some (t.entries.map (fun e => e.2)) ∧ get_class t c = some none := by
  constructor
  · have hm : matchEntries t [] = t.entries := by
      unfold matchEntries
      apply List.filter_eq_self.mpr
      intro e he
      exact List.isPrefixOf_nil_left
    unfold get_matches
    rw [hl]
    simp [hm]
  · have hf : t.entries.find? (fun e => decide (e.1 = [])) = none := by
      apply List.find?_eq_none.mpr
      intro x hx
      simp [hne x hx]
    unfold get_class exactMatch
    rw [hl]
    simp [hf]

/-- C10 (witness): at the index `{2, 24}` with input `"XX"`. -/
theorem claim_C10_witness :
    get_matches sampleTrie ['X', 'X'] = some (sampleTrie.entries.map (fun e => e.2))
    ∧ get_class sampleTrie ['X', 'X'] = some none :=
  claim_C10_empty_key_returns_all sampleTrie ['X', 'X'] (by decide) (by decide)

end Dewey
